import Mathlib

/-!
Verification of the ngx-hal relationship-resolution and identity-map subsystem.

Embedding conventions:
- JS strings are embedded as Lean `String`; the JS string operations used by the
  source (`startsWith`, `split('.')`, `join('.')`, `.length`, truthiness of a
  string) are implemented over the underlying character lists so that every
  definition evaluates inside the kernel.
- JS objects are embedded as association lists with JS assignment semantics:
  assigning to an existing key keeps its position, assigning to a fresh key
  appends it (`setKey`/`getKey`).
- `Array.prototype.sort(cmp)` with a consistent comparator is a stable sort;
  it is embedded as `List.insertionSort`, which is stable and sorts ascending
  by the same key.
-/

namespace NgxHal

/-- JS `s.startsWith(p)` on the character lists of the two strings:
`startsWithChars s p = true` iff `p` is a leading run of `s`. -/
def startsWithChars : List Char → List Char → Bool
  | _, [] => true
  | [], _ :: _ => false
  | c :: cs, p :: ps => c = p && startsWithChars cs ps

/-- JS `item.startsWith(current)`. -/
def jsStartsWith (item current : String) : Bool :=
  startsWithChars item.data current.data

/-- Helper for `jsSplitDot`: accumulates the current segment (reversed). -/
def splitOnDotAux : List Char → List Char → List String
  | [], acc => [String.mk acc.reverse]
  | c :: cs, acc =>
    if c = '.' then String.mk acc.reverse :: splitOnDotAux cs []
    else splitOnDotAux cs (c :: acc)

/-- JS `s.split('.')`. As in JS, `jsSplitDot "" = [""]` and no produced
segment contains a dot. -/
def jsSplitDot (s : String) : List String := splitOnDotAux s.data []

/-- JS `parts.join('.')`. -/
def jsJoinDot : List String → String
  | [] => ""
  | [s] => s
  | s :: rest => s ++ "." ++ jsJoinDot rest

/-- JS `s.length` (the length used by the include-sorting comparator). -/
def jsLength (s : String) : Nat := s.data.length

/-- The ordering used by `includes.sort((a, b) => a.length - b.length)`:
ascending string length. -/
def lenLe (a b : String) : Prop := jsLength a ≤ jsLength b

instance : DecidableRel lenLe := fun a b => Nat.decLe (jsLength a) (jsLength b)

instance : IsTotal String lenLe := ⟨fun a b => Nat.le_total (jsLength a) (jsLength b)⟩

instance : IsTrans String lenLe := ⟨fun _ _ _ h h2 => Nat.le_trans h h2⟩

/-- JS object assignment `obj[k] = v`: an existing key keeps its position and
gets the new value, a fresh key is appended. (Objects built with `setKey`
never hold a key twice, matching JS objects.) -/
def setKey {β : Type} : List (String × β) → String → β → List (String × β)
  | [], k, v => [(k, v)]
  | (k', v') :: tl, k, v =>
    if k' = k then (k, v) :: tl else (k', v') :: setKey tl k v

/-- JS object read `obj[k]`: `none` is JS `undefined`. -/
def getKey {β : Type} : List (String × β) → String → Option β
  | [], _ => none
  | (k', v) :: tl, k => if k' = k then some v else getKey tl k

theorem getKey_setKey_same {β : Type} (l : List (String × β)) (k : String) (v : β) :
    getKey (setKey l k v) k = some v := by
  induction l with
  | nil => simp [setKey, getKey]
  | cons hd tl ih =>
    by_cases h : hd.1 = k
    · simp [setKey, getKey, h]
    · simpa [setKey, getKey, h] using ih

theorem getKey_setKey_other {β : Type} (l : List (String × β)) (k k' : String) (v : β)
    (hne : k' ≠ k) : getKey (setKey l k v) k' = getKey l k' := by
  have hke : k ≠ k' := fun h => hne h.symm
  induction l with
  | nil => simp [setKey, getKey, hke]
  | cons hd tl ih =>
    obtain ⟨k0, v0⟩ := hd
    by_cases h : k0 = k
    · subst h
      simp [setKey, getKey, hke]
    · by_cases h' : k0 = k'
      · subst h'
        simp [setKey, getKey, h]
      · simp [setKey, getKey, h, h', ih]

theorem str_data_inj {p q : String} (h : p.data = q.data) : p = q := by
  cases p; cases q; exact congrArg String.mk h

theorem startsWithChars_iff : ∀ (s p : List Char), startsWithChars s p = true ↔ p <+: s
  | _, [] => by simp [startsWithChars]
  | [], _ :: _ => by simp [startsWithChars]
  | c :: cs, p :: ps => by
    simp only [startsWithChars, Bool.and_eq_true, decide_eq_true_eq, List.cons_prefix_cons,
      startsWithChars_iff cs ps]
    exact ⟨fun ⟨h1, h2⟩ => ⟨h1.symm, h2⟩, fun ⟨h1, h2⟩ => ⟨h1.symm, h2⟩⟩

theorem jsStartsWith_refl (s : String) : jsStartsWith s s = true :=
  (startsWithChars_iff _ _).mpr (List.prefix_refl _)

theorem jsStartsWith_trans {a b c : String} (h1 : jsStartsWith b a = true)
    (h2 : jsStartsWith c b = true) : jsStartsWith c a = true :=
  (startsWithChars_iff _ _).mpr
    (((startsWithChars_iff _ _).mp h1).trans ((startsWithChars_iff _ _).mp h2))

theorem eq_of_startsWith_of_length_le {p q : String} (h : jsStartsWith q p = true)
    (hl : jsLength q ≤ jsLength p) : p = q :=
  str_data_inj (((startsWithChars_iff _ _).mp h).eq_of_length
    (Nat.le_antisymm ((startsWithChars_iff _ _).mp h).length_le hl))

/-!
The redundant-include elimination, `DatastoreService.filterUnnecessaryIncludes`.
The source sorts the caller's array in place ascending by length, then drains
it with `shift()` inside `while (currentItem = sortedIncludes.shift())`:
an element is kept unless some *remaining* element has it as a string prefix.
The `while` condition is the JS truthiness of the shifted element, so shifting
an empty string terminates the loop. `filterDrain` returns both the kept
elements and what is left in the (shared, mutated) array when the loop exits.
-/
def filterDrain : List String → List String × List String
  | [] => ([], [])
  | c :: rest =>
    if c = "" then ([], rest)
    else if rest.any (fun item => jsStartsWith item c) = true then filterDrain rest
    else (c :: (filterDrain rest).1, (filterDrain rest).2)

/-- `includes.sort((a, b) => a.length - b.length)`: a stable ascending sort by
string length (JS sort with a consistent comparator is stable). -/
def sortIncludes (includes : List String) : List String :=
  includes.insertionSort lenLe

/-- `DatastoreService.filterUnnecessaryIncludes`: the returned filtered array. -/
def filterUnnecessaryIncludes (includes : List String) : List String :=
  (filterDrain (sortIncludes includes)).1

/-- The contents of the caller's array after `filterUnnecessaryIncludes`
returns: `sort` mutated it in place and `shift()` drained it. -/
def includesArrayAfter (includes : List String) : List String :=
  (filterDrain (sortIncludes includes)).2

theorem filterDrain_fst_subset : ∀ (l : List String), ∀ p ∈ (filterDrain l).1, p ∈ l := by
  intro l
  induction l with
  | nil => simp [filterDrain]
  | cons c rest ih =>
    intro p hp
    by_cases hc : c = ""
    · simp [filterDrain, hc] at hp
    · by_cases ha : rest.any (fun item => jsStartsWith item c) = true
      · rw [show filterDrain (c :: rest) = filterDrain rest by simp [filterDrain, hc, ha]] at hp
        exact List.mem_cons_of_mem _ (ih p hp)
      · rw [show (filterDrain (c :: rest)).1 = c :: (filterDrain rest).1 by
          simp [filterDrain, hc, ha]] at hp
        rcases List.mem_cons.mp hp with rfl | hp'
        · exact List.mem_cons_self _ _
        · exact List.mem_cons_of_mem _ (ih p hp')

theorem filterDrain_snd_nil : ∀ (l : List String), (∀ s ∈ l, s ≠ "") → (filterDrain l).2 = [] := by
  intro l
  induction l with
  | nil => intro _; simp [filterDrain]
  | cons c rest ih =>
    intro hne
    have hc : c ≠ "" := hne c (List.mem_cons_self c rest)
    have ih' := ih (fun s hs => hne s (List.mem_cons_of_mem _ hs))
    by_cases ha : rest.any (fun item => jsStartsWith item c) = true
    · simp [filterDrain, hc, ha, ih']
    · simp [filterDrain, hc, ha, ih']

theorem filterDrain_no_strict : ∀ (l : List String), (∀ s ∈ l, s ≠ "") → List.Sorted lenLe l →
    ∀ p ∈ (filterDrain l).1, ∀ q ∈ (filterDrain l).1, jsStartsWith q p = true → p = q := by
  intro l
  induction l with
  | nil => intro _ _ p hp; simp [filterDrain] at hp
  | cons c rest ih =>
    intro hne hs p hp q hq hpq
    have hc : c ≠ "" := hne c (List.mem_cons_self c rest)
    have hne' : ∀ s ∈ rest, s ≠ "" := fun s hs' => hne s (List.mem_cons_of_mem _ hs')
    rw [List.sorted_cons] at hs
    by_cases ha : rest.any (fun item => jsStartsWith item c) = true
    · rw [show filterDrain (c :: rest) = filterDrain rest by simp [filterDrain, hc, ha]] at hp hq
      exact ih hne' hs.2 p hp q hq hpq
    · have hnot : ∀ item ∈ rest, ¬jsStartsWith item c = true := by
        intro item hitem hft
        exact ha (List.any_eq_true.mpr ⟨item, hitem, hft⟩)
      rw [show (filterDrain (c :: rest)).1 = c :: (filterDrain rest).1 by
        simp [filterDrain, hc, ha]] at hp hq
      rcases List.mem_cons.mp hp with rfl | hp'
      · rcases List.mem_cons.mp hq with rfl | hq'
        · rfl
        · exact absurd hpq (hnot q (filterDrain_fst_subset rest q hq'))
      · rcases List.mem_cons.mp hq with rfl | hq'
        · exact eq_of_startsWith_of_length_le hpq (hs.1 p (filterDrain_fst_subset rest p hp'))
        · exact ih hne' hs.2 p hp' q hq' hpq

theorem filterDrain_covers : ∀ (l : List String), (∀ s ∈ l, s ≠ "") →
    ∀ p ∈ l, ∃ q ∈ (filterDrain l).1, jsStartsWith q p = true := by
  intro l
  induction l with
  | nil => intro _ p hp; simp at hp
  | cons c rest ih =>
    intro hne p hp
    have hc : c ≠ "" := hne c (List.mem_cons_self c rest)
    have hne' : ∀ s ∈ rest, s ≠ "" := fun s hs => hne s (List.mem_cons_of_mem _ hs)
    by_cases ha : rest.any (fun item => jsStartsWith item c) = true
    · have heq : filterDrain (c :: rest) = filterDrain rest := by simp [filterDrain, hc, ha]
      rcases List.mem_cons.mp hp with rfl | hp'
      · obtain ⟨item, hitem, hstart⟩ := List.any_eq_true.mp ha
        obtain ⟨q, hq, hq2⟩ := ih hne' item hitem
        exact ⟨q, by rw [heq]; exact hq, jsStartsWith_trans hstart hq2⟩
      · obtain ⟨q, hq, hq2⟩ := ih hne' p hp'
        exact ⟨q, by rw [heq]; exact hq, hq2⟩
    · have heq : (filterDrain (c :: rest)).1 = c :: (filterDrain rest).1 := by
        simp [filterDrain, hc, ha]
      rcases List.mem_cons.mp hp with rfl | hp'
      · exact ⟨p, by rw [heq]; exact List.mem_cons_self _ _, jsStartsWith_refl p⟩
      · obtain ⟨q, hq, hq2⟩ := ih hne' p hp'
        exact ⟨q, by rw [heq]; exact List.mem_cons_of_mem _ hq, hq2⟩

/-- C1: `filterUnnecessaryIncludes` returns a subset of its input in which no
returned path is a strict string prefix of another returned path, every input
path is either returned or is a string prefix of some returned path, and the
three documented examples hold. `jsStartsWith q p = true` states that `p` is a
string prefix of `q`. The hypothesis states that the inputs are include paths
(a dotted include path is a nonempty string). -/
theorem filter_unnecessary_includes_spec (includes : List String)
    (h : ∀ s ∈ includes, s ≠ "") :
    (∀ p ∈ filterUnnecessaryIncludes includes, p ∈ includes) ∧
    (∀ p ∈ filterUnnecessaryIncludes includes, ∀ q ∈ filterUnnecessaryIncludes includes,
      jsStartsWith q p = true → p = q) ∧
    (∀ p ∈ includes, p ∈ filterUnnecessaryIncludes includes ∨
      ∃ q ∈ filterUnnecessaryIncludes includes, jsStartsWith q p = true) ∧
    filterUnnecessaryIncludes ["a", "a.b", "a.b.c"] = ["a.b.c"] ∧
    filterUnnecessaryIncludes ["a", "b"] = ["a", "b"] ∧
    filterUnnecessaryIncludes ["a.b", "a.c"] = ["a.b", "a.c"] := by
  have hperm : (sortIncludes includes).Perm includes := List.perm_insertionSort lenLe includes
  have hmem : ∀ s, s ∈ sortIncludes includes ↔ s ∈ includes := fun s => hperm.mem_iff
  have hne : ∀ s ∈ sortIncludes includes, s ≠ "" := fun s hs => h s ((hmem s).mp hs)
  refine ⟨?_, ?_, ?_, by decide, by decide, by decide⟩
  · intro p hp
    exact (hmem p).mp (filterDrain_fst_subset _ p hp)
  · intro p hp q hq hpq
    exact filterDrain_no_strict _ hne (List.sorted_insertionSort lenLe includes) p hp q hq hpq
  · intro p hp
    obtain ⟨q, hq, hq2⟩ := filterDrain_covers _ hne p ((hmem p).mpr hp)
    exact Or.inr ⟨q, hq, hq2⟩

theorem filter_unnecessary_includes_spec_witness :
    filterUnnecessaryIncludes ["a", "a.b", "a.b.c"] = ["a.b.c"] :=
  (filter_unnecessary_includes_spec ["a", "a.b", "a.b.c"] (by decide)).2.2.2.1

/-- C10: `filterUnnecessaryIncludes` consumes its argument. `includes.sort`
sorts the caller's array in place and returns the same array reference, and
the `while`/`shift()` loop then removes its elements one by one, so once the
call returns the caller's array is empty. (`includesArrayAfter` is the
post-call contents of the caller's array; the hypothesis states that the
inputs are include paths, i.e. nonempty strings.) -/
theorem filter_unnecessary_includes_drains_input (includes : List String)
    (h : ∀ s ∈ includes, s ≠ "") : includesArrayAfter includes = [] := by
  have hperm : (sortIncludes includes).Perm includes := List.perm_insertionSort lenLe includes
  exact filterDrain_snd_nil _ (fun s hs => h s (hperm.mem_iff.mp hs))

theorem filter_unnecessary_includes_drains_input_witness :
    includesArrayAfter ["author", "author.company", "pets"] = [] :=
  filter_unnecessary_includes_drains_input ["author", "author.company", "pets"] (by decide)

/-- Attribute values carried by a raw resource. They are opaque to every code
path settled here (they only flow through user-supplied transforms). -/
inductive Val where
  | str (s : String)
  | num (n : Int)
deriving DecidableEq, Repr

structure RawHalLink where
  href : String
deriving DecidableEq, Repr

/-- A raw HAL resource: top-level attribute fields plus the reserved links
section. A link entry may be `none` (JS `null`), exactly as written by
`replaceRelationshipModel`'s `{ self: null }` initialisation. -/
structure RawHalResource where
  fields : List (String × Val) := []
  links : Option (List (String × Option RawHalLink)) := none
deriving DecidableEq, Repr

/-- The `ModelProperty` enum of the source. -/
inductive ModelPropertyType where
  | Attribute
  | HasOne
  | HasMany
deriving DecidableEq, Repr

/-- One property descriptor. In the source `propertyClass: any` serves both as
the relationship's target model class (embedded as an index into the class
registry) and as an attribute's value class (embedded as a constructor
function on the raw value); the two roles are split into two optional
fields. -/
structure ModelProperty where
  type : ModelPropertyType
  name : String
  propertyClass : Option Nat := none
  attributeClass : Option (Option Val → Val) := none
  includeInPayload : Bool := false
  transformBeforeSave : Option (Option Val → Option Val) := none
  tranformResponseValue : Option (Option Val → Option Val) := none

/-- The per-model-type descriptor lists read through `Reflect.getMetadata`
(missing metadata reads as an empty list), together with the type's
endpoint used when building URLs. -/
structure ModelClassDesc where
  endpoint : String := ""
  attributeProperties : List ModelProperty := []
  hasOneProperties : List ModelProperty := []
  hasManyProperties : List ModelProperty := []

abbrev Registry := List ModelClassDesc

def classDesc (reg : Registry) (i : Nat) : ModelClassDesc :=
  (reg.get? i).getD {}

/-- A `HalModel` instance: its class, its backing raw resource (mutable in the
source; mutating operations here return the updated model), the local
placeholder identifier assigned by `setLocalModelIdentificator` in the
constructor, the `temporarySelfLink` field, and the attribute fields assigned
by `parseAttributes`. -/
structure HalModel where
  classId : Nat
  resource : RawHalResource
  localModelIdentificator : String
  temporarySelfLink : Option String := none
  attrs : List (String × Option Val) := []
deriving DecidableEq, Repr

/-- The private `links` getter: `this.resource[LINKS_PROPERTY_NAME] || {}`. -/
def halLinks (m : HalModel) : List (String × Option RawHalLink) :=
  m.resource.links.getD []

/-- JS `this.links[name]` collapsed through truthiness: the link object, when
the key is present with a non-null value. -/
def linkEntry (m : HalModel) (name : String) : Option RawHalLink :=
  match getKey (halLinks m) name with
  | some (some l) => some l
  | _ => none

/-- `HalModel.getRelationshipUrl`: the linked href, or the empty string. -/
def getRelationshipUrl (m : HalModel) (name : String) : String :=
  match linkEntry m name with
  | some l => l.href
  | none => ""

/-- The `uniqueModelIdentificator` getter: the self link's href when the links
section holds a (non-null) self entry, the local placeholder otherwise. -/
def uniqueModelIdentificator (m : HalModel) : String :=
  match linkEntry m "self" with
  | none => m.localModelIdentificator
  | some l => l.href

/-- The `selfLink` getter: self href if truthy, else `temporarySelfLink`. -/
def selfLink (m : HalModel) : Option String :=
  match linkEntry m "self" with
  | some l => some l.href
  | none => m.temporarySelfLink

/-- One attribute assignment of `parseAttributes`: `propertyClass` wins, then
`tranformResponseValue`, else the raw value (undefined included). -/
def parseAttributeValue (p : ModelProperty) (raw : Option Val) : Option Val :=
  match p.attributeClass with
  | some ctor => some (ctor raw)
  | none =>
    match p.tranformResponseValue with
    | some f => f raw
    | none => raw

def resourceField (res : RawHalResource) (name : String) : Option Val :=
  getKey res.fields name

/-- `HalModel.parseAttributes`: assign every attribute descriptor's field. -/
def parseAttributes (props : List ModelProperty) (res : RawHalResource) :
    List (String × Option Val) :=
  props.foldl (fun acc p => setKey acc p.name (parseAttributeValue p (resourceField res p.name))) []

/-- The `HalModel` constructor: set the local identifier from a fresh UUID and
parse the attributes. (The relationship accessors are modelled as the
standalone functions below rather than installed properties.) -/
def mkHalModel (reg : Registry) (cls : Nat) (res : RawHalResource) (uuid : String) : HalModel :=
  { classId := cls
    resource := res
    localModelIdentificator := "local-model-identificator-" ++ uuid
    attrs := parseAttributes (classDesc reg cls).attributeProperties res }

/-- Reading an attribute field `this[name]` off a model. -/
def attrValue (m : HalModel) (name : String) : Option Val :=
  (getKey m.attrs name).join

/-- The raw object stored by the HasMany setter:
`{ models: value, uniqueModelIdentificator: ... }`. -/
structure HalDocumentRaw where
  models : List HalModel
  uniqueModelIdentificator : String
deriving DecidableEq, Repr

/-- What the identity store holds: models, or document-shaped objects. -/
inductive StorageEntity where
  | model (m : HalModel)
  | doc (d : HalDocumentRaw)
deriving DecidableEq, Repr

def storageIdentifier : StorageEntity → String
  | .model m => uniqueModelIdentificator m
  | .doc d => d.uniqueModelIdentificator

/-- Modelled from the spec: `HalStorage` is imported by the source from
`../../classes/hal-storage`, which is not under src/. Per the spec's Identity
Store contract, `save` upserts at the entity's identifier key, unconditionally
overwriting, and `get` returns the cached entity or `undefined`. -/
abbrev HalStorage := List (String × StorageEntity)

def storageSave (s : HalStorage) (e : StorageEntity) : HalStorage :=
  setKey s (storageIdentifier e) e

def storageGet (s : HalStorage) (id : String) : Option StorageEntity :=
  getKey s id

/-- The getter installed by `createHasOneGetters`: read the link entry by
relation name; if absent (or null) return undefined; otherwise return the
identity store's entry at the link's href. It is a function of the model's
links and the store alone - no network collaborator occurs in it. -/
def hasOneGetter (store : HalStorage) (m : HalModel) (name : String) : Option StorageEntity :=
  match linkEntry m name with
  | none => none
  | some l => storageGet store l.href

/-- `HalModel.replaceRelationshipModel`, abstracted over the written entity's
`selfLink` and `uniqueModelIdentificator` fields: ensure a links object exists
(initialised as `{ self: null }`), then point the relation's entry at the
entity's self link if truthy, else at its unique identifier. -/
def replaceRelationshipLink (m : HalModel) (name : String)
    (targetSelfLink : Option String) (targetIdentificator : String) : HalModel :=
  let base := match m.resource.links with
    | some l => l
    | none => [("self", none)]
  let href := match targetSelfLink with
    | some s => if s = "" then targetIdentificator else s
    | none => targetIdentificator
  { m with resource := { m.resource with links := some (setKey base name (some { href := href })) } }

/-- The setter installed by `createHasOneGetters`. -/
def hasOneSetter (m : HalModel) (name : String) (value : HalModel) : HalModel :=
  replaceRelationshipLink m name (selfLink value) (uniqueModelIdentificator value)

/-- The getter installed by `createHasManyGetters`: resolve the link entry,
look the href up in the store, and return the document's models; undefined
when the link is missing, when nothing is cached (the non-fatal warning
branch), or when the cached entry is not document-shaped (reading `.models`
off it yields undefined). -/
def hasManyGetter (store : HalStorage) (m : HalModel) (name : String) : Option (List HalModel) :=
  match linkEntry m name with
  | none => none
  | some l =>
    match storageGet store l.href with
    | some (.doc d) => some d.models
    | _ => none

/-- The setter installed by `createHasManyGetters`: synthesize a raw document
under a freshly generated `local-document-identificator-` placeholder, save it
in the store, and rewrite the relationship link to point at it. Returns the
updated store and model. -/
def hasManySetter (store : HalStorage) (m : HalModel) (name : String)
    (value : List HalModel) (uuid : String) : HalStorage × HalModel :=
  let d : HalDocumentRaw :=
    { models := value, uniqueModelIdentificator := "local-document-identificator-" ++ uuid }
  (storageSave store (.doc d), replaceRelationshipLink m name none d.uniqueModelIdentificator)

theorem linkEntry_replace_same (m : HalModel) (name : String) (sl : Option String) (uid : String) :
    linkEntry (replaceRelationshipLink m name sl uid) name =
      some { href := match sl with | some s => if s = "" then uid else s | none => uid } := by
  unfold linkEntry replaceRelationshipLink halLinks
  simp [getKey_setKey_same]

/-- C4: the HasOne relationship getter. With no link entry for the relation
name it returns undefined; with a link entry it returns exactly the identity
store's lookup at the entry's href - undefined on a fresh store, and the saved
target after `save(target)` with `target.uniqueModelIdentificator = l.href`.
Reading never issues a network fetch: `hasOneGetter` is a function of the
links and the store only, with no transport collaborator in scope. -/
theorem has_one_getter_spec (store : HalStorage) (m : HalModel) (name : String) :
    (linkEntry m name = none → hasOneGetter store m name = none) ∧
    (∀ l, linkEntry m name = some l → hasOneGetter store m name = storageGet store l.href) ∧
    (∀ l, linkEntry m name = some l → hasOneGetter ([] : HalStorage) m name = none) ∧
    (∀ l target, linkEntry m name = some l → uniqueModelIdentificator target = l.href →
      hasOneGetter (storageSave store (StorageEntity.model target)) m name =
        some (StorageEntity.model target)) := by
  refine ⟨fun h => by simp [hasOneGetter, h],
    fun l h => by simp [hasOneGetter, h],
    fun l h => by simp [hasOneGetter, h, storageGet, getKey],
    fun l target h hid => ?_⟩
  simp only [hasOneGetter, h, storageSave, storageGet, storageIdentifier]
  rw [← hid]
  exact getKey_setKey_same store _ _

theorem has_one_getter_spec_witness :
    hasOneGetter
      (storageSave []
        (StorageEntity.model
          { classId := 1, resource := { links := some [("self", some { href := "http://api/a/1" })] },
            localModelIdentificator := "m1" }))
      { classId := 0, resource := { links := some [("author", some { href := "http://api/a/1" })] },
        localModelIdentificator := "m0" }
      "author" =
    some (StorageEntity.model
      { classId := 1, resource := { links := some [("self", some { href := "http://api/a/1" })] },
        localModelIdentificator := "m1" }) :=
  (has_one_getter_spec [] _ "author").2.2.2 { href := "http://api/a/1" } _ rfl rfl

/-- C5: the HasMany assignment round trip. Setting the relationship to a list
of models stores a synthesized document in the identity store under the
freshly generated `local-document-identificator-` placeholder, rewrites the
relationship link entry to point at that identifier, and reading the
relationship back returns exactly the assigned list, in order. -/
theorem has_many_assignment_round_trip (store : HalStorage) (m : HalModel)
    (name : String) (value : List HalModel) (uuid : String) :
    storageGet (hasManySetter store m name value uuid).1
        ("local-document-identificator-" ++ uuid) =
      some (StorageEntity.doc
        { models := value,
          uniqueModelIdentificator := "local-document-identificator-" ++ uuid }) ∧
    linkEntry (hasManySetter store m name value uuid).2 name =
      some { href := "local-document-identificator-" ++ uuid } ∧
    hasManyGetter (hasManySetter store m name value uuid).1
      (hasManySetter store m name value uuid).2 name = some value := by
  refine ⟨?_, ?_, ?_⟩
  · exact getKey_setKey_same store _ _
  · exact linkEntry_replace_same m name none _
  · have h2 : (hasManySetter store m name value uuid).2 =
        replaceRelationshipLink m name none ("local-document-identificator-" ++ uuid) := rfl
    have h1 : storageGet (hasManySetter store m name value uuid).1
        ("local-document-identificator-" ++ uuid) =
      some (StorageEntity.doc
        { models := value,
          uniqueModelIdentificator := "local-document-identificator-" ++ uuid }) :=
      getKey_setKey_same store _ _
    rw [hasManyGetter, h2, linkEntry_replace_same m name none _]
    simp [h1]

/-- C8: `uniqueModelIdentificator` is total on models (a `String`, never
null): it is the self link's href whenever the links section holds a (truthy)
self entry, and otherwise the local placeholder, which the constructor
generates exactly once (`local-model-identificator-` + UUID) and which the
mutating relationship operations preserve for the model's whole lifetime. -/
theorem unique_model_identificator_spec :
    (∀ m : HalModel, ∀ l, linkEntry m "self" = some l →
      uniqueModelIdentificator m = l.href) ∧
    (∀ m : HalModel, linkEntry m "self" = none →
      uniqueModelIdentificator m = m.localModelIdentificator) ∧
    (∀ reg cls res uuid, (mkHalModel reg cls res uuid).localModelIdentificator =
      "local-model-identificator-" ++ uuid) ∧
    (∀ m name sl uid, (replaceRelationshipLink m name sl uid).localModelIdentificator =
      m.localModelIdentificator) ∧
    (∀ store m name value uuid,
      ((hasManySetter store m name value uuid).2).localModelIdentificator =
        m.localModelIdentificator) :=
  ⟨fun _ l h => by simp [uniqueModelIdentificator, h],
    fun _ h => by simp [uniqueModelIdentificator, h],
    fun _ _ _ _ => rfl,
    fun _ _ _ _ => rfl,
    fun _ _ _ _ _ => rfl⟩

theorem unique_model_identificator_spec_witness :
    uniqueModelIdentificator
      { classId := 0, resource := { links := some [("self", some { href := "http://api/p/7" })] },
        localModelIdentificator := "local-model-identificator-w" } = "http://api/p/7" :=
  unique_model_identificator_spec.1 _ { href := "http://api/p/7" } rfl

theorem getKey_foldl_setKey_of_not_mem {β : Type} (g : ModelProperty → β)
    (props : List ModelProperty) (k : String) (h : ∀ p ∈ props, p.name ≠ k) :
    ∀ acc : List (String × β),
      getKey (props.foldl (fun a p => setKey a p.name (g p)) acc) k = getKey acc k := by
  induction props with
  | nil => intro acc; rfl
  | cons q qs ih =>
    intro acc
    simp only [List.foldl_cons]
    rw [ih (fun p hp => h p (List.mem_cons_of_mem _ hp)) (setKey acc q.name (g q))]
    exact getKey_setKey_other acc q.name k (g q)
      (fun hk => h q (List.mem_cons_self _ _) hk.symm)

theorem getKey_foldl_setKey_of_mem {β : Type} (g : ModelProperty → β)
    (props : List ModelProperty) (p : ModelProperty) (hmem : p ∈ props)
    (hnd : (props.map (fun q => q.name)).Nodup) :
    ∀ acc : List (String × β),
      getKey (props.foldl (fun a q => setKey a q.name (g q)) acc) p.name = some (g p) := by
  induction props with
  | nil => exact absurd hmem (List.not_mem_nil p)
  | cons q qs ih =>
    intro acc
    simp only [List.map_cons, List.nodup_cons] at hnd
    simp only [List.foldl_cons]
    rcases List.mem_cons.mp hmem with rfl | hmem'
    · rw [getKey_foldl_setKey_of_not_mem g qs p.name
        (fun r hr heq => hnd.1 (heq ▸ List.mem_map_of_mem _ hr))]
      exact getKey_setKey_same acc p.name (g p)
    · exact ih hmem' hnd.2 (setKey acc q.name (g q))

/-- C7: for every Attribute descriptor of the model's type, construction
assigns the model's field per the descriptor: the value class constructor
applied to the raw field when `propertyClass` is set, else the response
transform of the raw field when set, else the raw field unchanged - where the
raw field is `undefined` (`none`) when absent from the resource, and no case
raises an error (the equation holds for every resource). Names of the
attribute descriptors are assumed distinct, as declared descriptors are. -/
theorem parse_attributes_spec (reg : Registry) (cls : Nat) (res : RawHalResource)
    (uuid : String) (p : ModelProperty)
    (hmem : p ∈ (classDesc reg cls).attributeProperties)
    (hnd : ((classDesc reg cls).attributeProperties.map (fun q => q.name)).Nodup) :
    attrValue (mkHalModel reg cls res uuid) p.name =
      (match p.attributeClass with
       | some ctor => some (ctor (resourceField res p.name))
       | none =>
         match p.tranformResponseValue with
         | some f => f (resourceField res p.name)
         | none => resourceField res p.name) := by
  have h := getKey_foldl_setKey_of_mem
    (fun q => parseAttributeValue q (resourceField res q.name))
    (classDesc reg cls).attributeProperties p hmem hnd []
  show (getKey (parseAttributes (classDesc reg cls).attributeProperties res) p.name).join = _
  rw [parseAttributes, h]
  rfl

theorem parse_attributes_spec_witness :
    attrValue
      (mkHalModel [{ attributeProperties := [{ type := ModelPropertyType.Attribute, name := "title" }] }]
        0 { fields := [("title", Val.str "x")] } "u")
      "title" = some (Val.str "x") :=
  (parse_attributes_spec
      [{ attributeProperties := [{ type := ModelPropertyType.Attribute, name := "title" }] }]
      0 { fields := [("title", Val.str "x")] } "u"
      { type := ModelPropertyType.Attribute, name := "title" }
      (List.mem_singleton_self _) (by decide)).trans rfl

/-- Values of a `_links` entry in a generated write payload. -/
inductive LinkPayload where
  | one (href : Option String)
  | many (hrefs : List (Option String))
deriving DecidableEq, Repr

/-- A generated write payload: the attribute fields, and the links section
when present (JS object key presence). -/
structure Payload where
  fields : List (String × Option Val)
  links : Option (List (String × LinkPayload))
deriving DecidableEq, Repr

/-- JS object spread `{...a, ...b}`: `b`'s entries override, an overridden key
keeps its position in `a`. -/
def spreadMerge {β : Type} (a b : List (String × β)) : List (String × β) :=
  b.foldl (fun acc kv => setKey acc kv.1 kv.2) a

/-- JS `value.selfLink` where the value can be a model or the raw document
object stored by the HasMany setter (which has no selfLink: undefined). -/
def entitySelfLink : StorageEntity → Option String
  | .model mm => selfLink mm
  | .doc _ => none

/-- The `attributePropertiesPayload` reduce of `generatePayload`. -/
def attributesPayload (cls : ModelClassDesc) (m : HalModel) : List (String × Option Val) :=
  cls.attributeProperties.foldl (fun acc p =>
    setKey acc p.name
      (match p.transformBeforeSave with
       | some f => f (attrValue m p.name)
       | none => attrValue m p.name)) []

/-- The `hasOnePropertiesPayload` reduce of `generatePayload`: only
descriptors flagged `includeInPayload`; a falsy relationship value is
skipped, a set one contributes `{href: value.selfLink}`. -/
def hasOnePayload (cls : ModelClassDesc) (store : HalStorage) (m : HalModel) :
    List (String × LinkPayload) :=
  (cls.hasOneProperties.filter (fun p => p.includeInPayload)).foldl
    (fun acc p =>
      match hasOneGetter store m p.name with
      | none => acc
      | some ent => setKey acc p.name (LinkPayload.one (entitySelfLink ent))) []

/-- The `hasManyPropertiesPayload` reduce of `generatePayload`: only
descriptors flagged `includeInPayload`; the entry is first assigned `[]` and
then, when the relationship reads back a model list, one `{href}` per
member is pushed. -/
def hasManyPayload (cls : ModelClassDesc) (store : HalStorage) (m : HalModel) :
    List (String × LinkPayload) :=
  (cls.hasManyProperties.filter (fun p => p.includeInPayload)).foldl
    (fun acc p =>
      setKey acc p.name
        (match hasManyGetter store m p.name with
         | none => LinkPayload.many []
         | some models => LinkPayload.many (models.map selfLink))) []

/-- `HalModel.generatePayload`: merge the attribute payload at top level and
add the `_links` section only when the merged relationship links object is
non-empty. -/
def generatePayload (reg : Registry) (store : HalStorage) (m : HalModel) : Payload :=
  { fields := attributesPayload (classDesc reg m.classId) m
    links :=
      if (spreadMerge (hasOnePayload (classDesc reg m.classId) store m)
            (hasManyPayload (classDesc reg m.classId) store m)).length = 0 then none
      else some (spreadMerge (hasOnePayload (classDesc reg m.classId) store m)
        (hasManyPayload (classDesc reg m.classId) store m)) }

/-- C6: `generatePayload` includes a links section only when it is non-empty.
With no relationship descriptor flagged `includeInPayload` the payload has no
links key; the links key, when present, is never the empty object; and with
exactly one flagged HasOne descriptor whose target is set (and no flagged
HasMany descriptor), the links section is exactly
`{<name>: {href: target.selfLink}}`. -/
theorem generate_payload_links_spec (reg : Registry) (store : HalStorage) (m : HalModel) :
    ((classDesc reg m.classId).hasOneProperties.filter (fun q => q.includeInPayload) = [] →
     (classDesc reg m.classId).hasManyProperties.filter (fun q => q.includeInPayload) = [] →
     (generatePayload reg store m).links = none) ∧
    (∀ l, (generatePayload reg store m).links = some l → l ≠ []) ∧
    (∀ p target,
     (classDesc reg m.classId).hasOneProperties.filter (fun q => q.includeInPayload) = [p] →
     (classDesc reg m.classId).hasManyProperties.filter (fun q => q.includeInPayload) = [] →
     hasOneGetter store m p.name = some (StorageEntity.model target) →
     (generatePayload reg store m).links =
       some [(p.name, LinkPayload.one (selfLink target))]) := by
  refine ⟨fun h1 h2 => ?_, fun l hl => ?_, fun p target h1 h2 hget => ?_⟩
  · show (if _ then none else _) = none
    rw [show hasOnePayload (classDesc reg m.classId) store m = [] by
      rw [hasOnePayload, h1]; rfl]
    rw [show hasManyPayload (classDesc reg m.classId) store m = [] by
      rw [hasManyPayload, h2]; rfl]
    rfl
  · by_cases hc : (spreadMerge (hasOnePayload (classDesc reg m.classId) store m)
        (hasManyPayload (classDesc reg m.classId) store m)).length = 0
    · rw [show (generatePayload reg store m).links = none by
        show (if _ then none else _) = none; rw [if_pos hc]] at hl
      exact absurd hl (by simp)
    · rw [show (generatePayload reg store m).links =
          some (spreadMerge (hasOnePayload (classDesc reg m.classId) store m)
            (hasManyPayload (classDesc reg m.classId) store m)) by
        show (if _ then none else _) = _; rw [if_neg hc]] at hl
      intro hnil
      rw [Option.some_inj.mp hl, hnil] at hc
      exact hc rfl
  · have hone : hasOnePayload (classDesc reg m.classId) store m =
        [(p.name, LinkPayload.one (selfLink target))] := by
      rw [hasOnePayload, h1]
      simp only [List.foldl_cons, List.foldl_nil, hget]
      rfl
    have hmany : hasManyPayload (classDesc reg m.classId) store m = [] := by
      rw [hasManyPayload, h2]; rfl
    show (if _ then none else _) = _
    rw [hone, hmany]
    rfl

theorem generate_payload_links_spec_witness :
    (generatePayload
      [{ hasOneProperties := [{ type := ModelPropertyType.HasOne, name := "author",
                                includeInPayload := true }] }]
      [("http://api/a/1", StorageEntity.model
        { classId := 1, resource := { links := some [("self", some { href := "http://api/a/1" })] },
          localModelIdentificator := "m1" })]
      { classId := 0, resource := { links := some [("author", some { href := "http://api/a/1" })] },
        localModelIdentificator := "m0" }).links =
    some [("author", LinkPayload.one (some "http://api/a/1"))] :=
  ((generate_payload_links_spec
      [{ hasOneProperties := [{ type := ModelPropertyType.HasOne, name := "author",
                                includeInPayload := true }] }]
      [("http://api/a/1", StorageEntity.model
        { classId := 1, resource := { links := some [("self", some { href := "http://api/a/1" })] },
          localModelIdentificator := "m1" })]
      { classId := 0, resource := { links := some [("author", some { href := "http://api/a/1" })] },
        localModelIdentificator := "m0" }).2.2
    { type := ModelPropertyType.HasOne, name := "author", includeInPayload := true }
    { classId := 1, resource := { links := some [("self", some { href := "http://api/a/1" })] },
      localModelIdentificator := "m1" }
    rfl rfl rfl).trans rfl

/-- Request options, embedded as a JS object (partial map from option keys to
opaque values). -/
def RequestOptions : Type := String → Option Val

def emptyRequestOptions : RequestOptions := fun _ => none

/-- JS `Object.assign(target, source)`: every own entry of `source` is written
into `target`; `target` itself is mutated and returned. -/
def objectAssign (target source : RequestOptions) : RequestOptions :=
  fun k =>
    match source k with
    | some v => some v
    | none => target k

/-- The option merge performed by `findOne` / `makeGetRequest`:
`const options = Object.assign(DEFAULT_REQUEST_OPTIONS, requestOptions)`.
The shared `DEFAULT_REQUEST_OPTIONS` constant is the assignment *target*, so
the call both computes the effective options and overwrites the shared
constant with them; the pair returned here is (effective options, contents of
`DEFAULT_REQUEST_OPTIONS` after the call). -/
def mergeRequestOptions (defaultRequestOptions requestOptions : RequestOptions) :
    RequestOptions × RequestOptions :=
  (objectAssign defaultRequestOptions requestOptions,
   objectAssign defaultRequestOptions requestOptions)

/-- C9: a `findOne` (or any `makeGetRequest`) issued with request options `R`
mutates the shared `DEFAULT_REQUEST_OPTIONS` object - after the call the
shared default equals the merge of its old value with `R` - and therefore a
later, independent request issued with empty request options still sees every
entry of `R` in its effective options. -/
theorem default_request_options_leak (d r : RequestOptions) (k : String) (v : Val)
    (h : r k = some v) :
    (mergeRequestOptions d r).2 = objectAssign d r ∧
    (mergeRequestOptions (mergeRequestOptions d r).2 emptyRequestOptions).1 k = some v := by
  refine ⟨rfl, ?_⟩
  show objectAssign (objectAssign d r) emptyRequestOptions k = some v
  simp [objectAssign, emptyRequestOptions, h]

theorem default_request_options_leak_witness :
    (mergeRequestOptions
      (mergeRequestOptions emptyRequestOptions
        (fun k => if k = "headers" then some (Val.str "x-auth") else none)).2
      emptyRequestOptions).1 "headers" = some (Val.str "x-auth") :=
  (default_request_options_leak emptyRequestOptions
    (fun k => if k = "headers" then some (Val.str "x-auth") else none)
    "headers" (Val.str "x-auth") (by simp)).2

/-- `HalModel.getPropertyData`: the first matching descriptor, searching
attribute properties, then HasOne, then HasMany
(`attributeProperty || hasOneProperty || hasManyProperty`). -/
def getPropertyData (reg : Registry) (m : HalModel) (name : String) : Option ModelProperty :=
  match (classDesc reg m.classId).attributeProperties.find? (fun p => p.name == name) with
  | some p => some p
  | none =>
    match (classDesc reg m.classId).hasOneProperties.find? (fun p => p.name == name) with
    | some p => some p
    | none => (classDesc reg m.classId).hasManyProperties.find? (fun p => p.name == name)

/-- What a fetch resolves to: a single-resource fetch builds a model; a
collection fetch builds a HalDocument. The `hal-document` class is not under
src/, so the document entity carries its raw response opaquely - no claim
settled here reads a fetched document's parsed members. -/
inductive Entity where
  | model (m : HalModel)
  | doc (res : RawHalResource)
deriving DecidableEq, Repr

/-- UUID supplied to models built from fetched responses. The local
identifier of a fetched model influences none of the properties settled
here (the fetch tree only reads hrefs out of links sections). -/
def fetchedUuid : String := "fetched"

/-- `DatastoreService.makeGetRequest`: issue `http.get(url)` against the
transport collaborator `server` (`.error ()` is a failed response); on a
response, construct and return a model (single resource) or a document
(collection). An undefined model class (`new undefined(...)`) throws, embedded
as a failure. The `storage.save`/`saveAll` writes are not threaded here: no
claim settled against this embedding observes the store. -/
def makeGet (reg : Registry) (server : String → Except Unit RawHalResource)
    (url : String) (cls : Option Nat) (single : Bool) : Except Unit Entity :=
  match server url with
  | .error e => .error e
  | .ok res =>
    match cls with
    | none => .error ()
    | some c =>
      if single then .ok (.model (mkHalModel reg c res fetchedUuid))
      else .ok (.doc res)

/-- The tree of fetches issued while resolving includes: the requested url,
whether it was a single-resource fetch, and the fetches issued by the
recursion. Children are issued inside the `flatMap` continuation of the
parent request, i.e. a child fetch starts only after its parent fetch has
resolved successfully (a failed parent has no children). -/
inductive FetchNode where
  | node (url : String) (single : Bool) (children : List FetchNode)

/-- RxJS `combineLatest(...calls)` as observed by `findOne`'s subscriber: an
error in any input fails the join; with no inputs at all, or an input that
completed without emitting, the join completes without emitting (`.ok none`);
otherwise every input emitted and the join emits (`.ok (some ())`). -/
def joinLatest (rs : List (Except Unit (Option Entity))) : Except Unit (Option Unit) :=
  if rs.any (fun r => match r with | .error _ => true | _ => false) then .error ()
  else if rs.length = 0 ∨ rs.any (fun r => match r with | .ok none => true | _ => false) then
    .ok none
  else .ok (some ())

/-- `DatastoreService.handleGetRequestWithRelationships`, fuel-indexed (the
fuel bounds the include recursion depth; every theorem below supplies enough
fuel). Returns the emitted result and the tree of fetches issued: perform
`makeGetRequest`; if `includeRelationships` is non-empty, run
`fetchRelationships` on the fetched entity - filter the includes, then for
each surviving path split it at the first dot, resolve the current-level
relationship's url (`getRelationshipUrl`) and descriptor (`getPropertyData`,
whose Attribute/HasOne kinds give a single-resource fetch and HasMany a
collection fetch), and recurse with `[rest-of-path]` - and join the calls
with `combineLatest`, mapping back to the fetched entity. A recursion on a
fetched document (`isSingleResource=false`, the source's TODO case) throws on
`getRelationshipUrl`, embedded as a failure, as is an undefined descriptor's
`propertyClass`. -/
def handleGetT (reg : Registry) (server : String → Except Unit RawHalResource) :
    Nat → String → Option Nat → Bool → List String → Except Unit (Option Entity) × FetchNode
  | 0, url, cls, single, rels =>
    (match makeGet reg server url cls single with
     | .error e => (.error e, FetchNode.node url single [])
     | .ok ent =>
       if rels.length = 0 then (.ok (some ent), FetchNode.node url single [])
       else (.error (), FetchNode.node url single []))
  | fuel + 1, url, cls, single, rels =>
    match makeGet reg server url cls single with
    | .error e => (.error e, FetchNode.node url single [])
    | .ok ent =>
      if rels.length = 0 then (.ok (some ent), FetchNode.node url single [])
      else
        let pairs := (filterUnnecessaryIncludes rels).map (fun rel =>
          match ent with
          | .doc _ => ((.error (), []) : Except Unit (Option Entity) × List FetchNode)
          | .model m =>
            let parts := jsSplitDot rel
            let head := parts.headD ""
            let rest := jsJoinDot parts.tail
            match getPropertyData reg m head with
            | none => (.error (), [])
            | some prop =>
              let q := handleGetT reg server fuel (getRelationshipUrl m head) prop.propertyClass
                (prop.type == ModelPropertyType.Attribute || prop.type == ModelPropertyType.HasOne)
                [rest]
              (q.1, [q.2]))
        (match joinLatest (pairs.map Prod.fst) with
         | .error e => .error e
         | .ok none => .ok none
         | .ok (some _) => .ok (some ent),
         FetchNode.node url single (pairs.foldr (fun p acc => p.2 ++ acc) []))

/-- One iteration of `fetchRelationships`' loop over the filtered includes:
split the path at the first dot, resolve url and descriptor of the head
relation, issue the recursive `handleGetRequestWithRelationships` call with
`[rest]`. Returns the call's result together with the fetch nodes it issued
(none at all when the loop body throws before fetching). -/
def resolveOne (reg : Registry) (server : String → Except Unit RawHalResource)
    (fuel : Nat) (ent : Entity) (rel : String) :
    Except Unit (Option Entity) × List FetchNode :=
  match ent with
  | .doc _ => (.error (), [])
  | .model m =>
    let parts := jsSplitDot rel
    let head := parts.headD ""
    let rest := jsJoinDot parts.tail
    match getPropertyData reg m head with
    | none => (.error (), [])
    | some prop =>
      let q := handleGetT reg server fuel (getRelationshipUrl m head) prop.propertyClass
        (prop.type == ModelPropertyType.Attribute || prop.type == ModelPropertyType.HasOne)
        [rest]
      (q.1, [q.2])

/-- `DatastoreService.fetchRelationships`: filter the requested includes and
issue one relationship call per surviving path. -/
def fetchRelationshipsT (reg : Registry) (server : String → Except Unit RawHalResource)
    (fuel : Nat) (ent : Entity) (rels : List String) :
    List (Except Unit (Option Entity) × List FetchNode) :=
  (filterUnnecessaryIncludes rels).map (resolveOne reg server fuel ent)

theorem handleGetT_succ (reg : Registry) (server : String → Except Unit RawHalResource)
    (fuel : Nat) (url : String) (cls : Option Nat) (single : Bool) (rels : List String) :
    handleGetT reg server (fuel + 1) url cls single rels =
      match makeGet reg server url cls single with
      | .error e => (.error e, FetchNode.node url single [])
      | .ok ent =>
        if rels.length = 0 then (.ok (some ent), FetchNode.node url single [])
        else
          (match joinLatest ((fetchRelationshipsT reg server fuel ent rels).map Prod.fst) with
           | .error e => .error e
           | .ok none => .ok none
           | .ok (some _) => .ok (some ent),
           FetchNode.node url single
             ((fetchRelationshipsT reg server fuel ent rels).foldr (fun p acc => p.2 ++ acc) [])) :=
  rfl

/-- Network configuration of the datastore (`baseUrl`/`endpoint`; JS-falsy
parts are empty strings, filtered out when the URL is built). -/
structure NetworkConfig where
  baseUrl : String := ""
  endpoint : String := ""

def jsJoinSlash : List String → String
  | [] => ""
  | [s] => s
  | s :: rest => s ++ "/" ++ jsJoinSlash rest

/-- `DatastoreService.buildUrl`/`buildModelUrl`: join the truthy parts of
`[baseUrl, endpoint, model.endpoint]` with `/`, then append the model id.
(`model.endpoint` is `config.endpoint || constructor.name`, embedded as the
class descriptor's `endpoint` field.) -/
def buildModelUrl (cfg : NetworkConfig) (reg : Registry) (cls : Nat)
    (modelId : Option String) : String :=
  let modelUrl := jsJoinSlash
    (([cfg.baseUrl, cfg.endpoint, (classDesc reg cls).endpoint]).filter (fun s => s ≠ ""))
  match modelId with
  | some i => modelUrl ++ "/" ++ i
  | none => modelUrl

/-- `DatastoreService.findOne`: build the model URL and delegate to
`handleGetRequestWithRelationships` as a single-resource fetch with the
requested includes. (Request options are settled separately by
`mergeRequestOptions`; the transport collaborator ignores them.) -/
def findOneT (cfg : NetworkConfig) (reg : Registry)
    (server : String → Except Unit RawHalResource) (fuel : Nat) (cls : Nat)
    (modelId : String) (includeRelationships : List String) :
    Except Unit (Option Entity) × FetchNode :=
  handleGetT reg server fuel (buildModelUrl cfg reg cls (some modelId)) (some cls) true
    includeRelationships

/-- Wellformedness of one include path against a model: every segment names a
declared relationship of the model at its depth, and every non-final segment
is single-resource-kinded (Attribute/HasOne), so that the recursion happens
on a fetched model; the fuel bounds the depth. -/
def pathOk (reg : Registry) (server : String → Except Unit RawHalResource) :
    Nat → HalModel → String → Bool
  | 0, _, _ => false
  | fuel + 1, m, rel =>
    let parts := jsSplitDot rel
    let head := parts.headD ""
    let rest := jsJoinDot parts.tail
    match getPropertyData reg m head with
    | none => false
    | some prop =>
      let single := prop.type == ModelPropertyType.Attribute ||
        prop.type == ModelPropertyType.HasOne
      if rest = "" then true
      else
        single &&
        (match makeGet reg server (getRelationshipUrl m head) prop.propertyClass single with
         | .error _ => true
         | .ok (.model m') => pathOk reg server fuel m' rest
         | .ok (.doc _) => false)

/-- Spec-side definition, written from the spec's words for the recursive
fetch: split the path at the first dot into head and rest; resolve head's URL
via the current model's link entry and its kind via the registered property
descriptors (Attribute/HasOne : single-resource fetch, HasMany : collection
fetch); issue that fetch; when rest is non-empty and the fetch resolved to a
model, recurse on that model with the rest of the path, the recursive fetch
nested strictly under (after) its parent's. -/
def specResolvePath (reg : Registry) (server : String → Except Unit RawHalResource) :
    Nat → HalModel → String → Option FetchNode
  | 0, _, _ => none
  | fuel + 1, m, rel =>
    let parts := jsSplitDot rel
    let head := parts.headD ""
    let rest := jsJoinDot parts.tail
    match getPropertyData reg m head with
    | none => none
    | some prop =>
      let url := getRelationshipUrl m head
      let single := prop.type == ModelPropertyType.Attribute ||
        prop.type == ModelPropertyType.HasOne
      if rest = "" then some (FetchNode.node url single [])
      else
        match makeGet reg server url prop.propertyClass single with
        | .error _ => some (FetchNode.node url single [])
        | .ok (.model m') =>
          (specResolvePath reg server fuel m' rest).map
            (fun n => FetchNode.node url single [n])
        | .ok (.doc _) => none

theorem filterUnnecessaryIncludes_empty_string : filterUnnecessaryIncludes [""] = [] := rfl

theorem filterUnnecessaryIncludes_singleton {s : String} (h : s ≠ "") :
    filterUnnecessaryIncludes [s] = [s] := by
  show (filterDrain (List.insertionSort lenLe [s])).1 = [s]
  rw [show List.insertionSort lenLe [s] = [s] from rfl]
  simp [filterDrain, h]

theorem joinLatest_error_of_mem {rs : List (Except Unit (Option Entity))}
    (hmem : Except.error () ∈ rs) : joinLatest rs = .error () := by
  unfold joinLatest
  rw [if_pos]
  exact List.any_eq_true.mpr ⟨Except.error (), hmem, rfl⟩

theorem makeGet_single_model {reg : Registry} {server : String → Except Unit RawHalResource}
    {url : String} {cls : Option Nat} {ent : Entity}
    (h : makeGet reg server url cls true = .ok ent) : ∃ m', ent = Entity.model m' := by
  unfold makeGet at h
  cases hs : server url <;> rw [hs] at h
  · exact absurd h (by simp)
  · cases cls with
    | none => exact absurd h (by simp)
    | some c =>
      simp only [if_true] at h
      exact ⟨_, (Except.ok.injEq _ _ ▸ h.symm : ent = _)⟩

theorem handleGetT_succ_ok {reg : Registry} {server : String → Except Unit RawHalResource}
    {fuel : Nat} {url : String} {cls : Option Nat} {single : Bool} {rels : List String}
    {ent : Entity} (hmg : makeGet reg server url cls single = .ok ent)
    (hne : ¬rels.length = 0) :
    handleGetT reg server (fuel + 1) url cls single rels =
      (match joinLatest ((fetchRelationshipsT reg server fuel ent rels).map Prod.fst) with
       | .error e => .error e
       | .ok none => .ok none
       | .ok (some _) => .ok (some ent),
       FetchNode.node url single
         ((fetchRelationshipsT reg server fuel ent rels).foldr (fun p acc => p.2 ++ acc) [])) := by
  have h1 : handleGetT reg server (fuel + 1) url cls single rels =
      if rels.length = 0 then (.ok (some ent), FetchNode.node url single [])
      else
        (match joinLatest ((fetchRelationshipsT reg server fuel ent rels).map Prod.fst) with
         | .error e => .error e
         | .ok none => .ok none
         | .ok (some _) => .ok (some ent),
         FetchNode.node url single
           ((fetchRelationshipsT reg server fuel ent rels).foldr (fun p acc => p.2 ++ acc) [])) := by
    rw [handleGetT_succ, hmg]
  rw [h1, if_neg hne]

theorem resolveOne_eq_spec (reg : Registry) (server : String → Except Unit RawHalResource) :
    ∀ (fuel : Nat) (m : HalModel) (rel : String),
      pathOk reg server fuel m rel = true →
      ∃ n, specResolvePath reg server fuel m rel = some n ∧
        (resolveOne reg server fuel (Entity.model m) rel).2 = [n] := by
  intro fuel
  induction fuel with
  | zero => intro m rel h; simp [pathOk] at h
  | succ fuel ih =>
    intro m rel h
    simp only [pathOk] at h
    split at h
    · exact absurd h (by simp)
    · rename_i prop hprop
      by_cases hrest : jsJoinDot (jsSplitDot rel).tail = ""
      · refine ⟨FetchNode.node (getRelationshipUrl m ((jsSplitDot rel).headD ""))
          (prop.type == ModelPropertyType.Attribute || prop.type == ModelPropertyType.HasOne)
          [], ?_, ?_⟩
        · simp only [specResolvePath, hprop]
          rw [hrest]
          rfl
        · simp only [resolveOne, hprop]
          rw [hrest]
          cases hmg : makeGet reg server (getRelationshipUrl m ((jsSplitDot rel).headD ""))
              prop.propertyClass
              (prop.type == ModelPropertyType.Attribute ||
                prop.type == ModelPropertyType.HasOne) with
          | error e => rw [handleGetT_succ, hmg]
          | ok ent =>
            rw [handleGetT_succ, hmg]
            rfl
      · rw [if_neg hrest, Bool.and_eq_true] at h
        rcases h with ⟨hsingle, hrec⟩
        rw [hsingle] at hrec
        cases hmg : makeGet reg server (getRelationshipUrl m ((jsSplitDot rel).headD ""))
            prop.propertyClass true with
        | error e =>
          refine ⟨FetchNode.node (getRelationshipUrl m ((jsSplitDot rel).headD "")) true [],
            ?_, ?_⟩
          · simp only [specResolvePath, hprop]
            rw [if_neg hrest, hsingle, hmg]
          · simp only [resolveOne, hprop]
            rw [hsingle, handleGetT_succ, hmg]
        | ok ent =>
          rw [hmg] at hrec
          obtain ⟨m', rfl⟩ := makeGet_single_model hmg
          have hrec' : pathOk reg server fuel m' (jsJoinDot (jsSplitDot rel).tail) = true := hrec
          obtain ⟨n', hs', hr'⟩ := ih m' (jsJoinDot (jsSplitDot rel).tail) hrec'
          refine ⟨FetchNode.node (getRelationshipUrl m ((jsSplitDot rel).headD "")) true [n'],
            ?_, ?_⟩
          · simp only [specResolvePath, hprop]
            rw [if_neg hrest, hsingle, hmg]
            show Option.map
                (fun n => FetchNode.node (getRelationshipUrl m ((jsSplitDot rel).headD "")) true [n])
                (specResolvePath reg server fuel m' (jsJoinDot (jsSplitDot rel).tail)) =
              some (FetchNode.node (getRelationshipUrl m ((jsSplitDot rel).headD "")) true [n'])
            rw [hs']
            rfl
          · simp only [resolveOne, hprop]
            have hfetch : fetchRelationshipsT reg server fuel (Entity.model m')
                [jsJoinDot (jsSplitDot rel).tail] =
              [resolveOne reg server fuel (Entity.model m') (jsJoinDot (jsSplitDot rel).tail)] := by
              unfold fetchRelationshipsT
              rw [filterUnnecessaryIncludes_singleton hrest]
              rfl
            rw [hsingle, handleGetT_succ_ok hmg (by simp), hfetch]
            simp only [List.foldr_cons, List.foldr_nil, hr', List.append_nil]

/-- C2: for every surviving leaf include path, the include resolver issues the
call described by the spec. `specResolvePath` is the spec-side definition
(split at the first dot into head and rest; head's URL from the current
model's link entry; head's kind from the registered descriptors, with
Attribute/HasOne a single-resource fetch and HasMany a collection fetch;
issue the fetch; when rest is non-empty, recurse with `[rest]` on the fetched
model), and the code's per-path relationship call produces exactly that fetch
tree - children nested under their parent encode that a recursive fetch
starts only after its parent fetch has resolved. Hypotheses: the path's
segments are declared relationships at each depth, non-final segments are
single-resource kinded (so a fetched model exists to recurse on; the
collection-valued intermediate case is the source's open TODO), and the fuel
covers the path's depth. -/
theorem include_resolver_per_leaf_spec (reg : Registry)
    (server : String → Except Unit RawHalResource) (fuel : Nat) (m : HalModel)
    (rels : List String) (rel : String)
    (hmem : rel ∈ filterUnnecessaryIncludes rels)
    (hok : pathOk reg server fuel m rel = true) :
    ∃ n, specResolvePath reg server fuel m rel = some n ∧
      (resolveOne reg server fuel (Entity.model m) rel).2 = [n] ∧
      resolveOne reg server fuel (Entity.model m) rel ∈
        fetchRelationshipsT reg server fuel (Entity.model m) rels := by
  obtain ⟨n, hs, hr⟩ := resolveOne_eq_spec reg server fuel m rel hok
  exact ⟨n, hs, hr, List.mem_map_of_mem _ hmem⟩

def wReg : Registry :=
  [{ hasOneProperties :=
      [{ type := ModelPropertyType.HasOne, name := "author", propertyClass := some 1 }] },
   { hasOneProperties :=
      [{ type := ModelPropertyType.HasOne, name := "company", propertyClass := some 2 }] },
   {}]

def wServer : String → Except Unit RawHalResource := fun url =>
  if url = "u/author" then .ok { links := some [("company", some { href := "u/company" })] }
  else if url = "u/company" then .ok {}
  else .error ()

def wRootModel : HalModel :=
  { classId := 0, resource := { links := some [("author", some { href := "u/author" })] },
    localModelIdentificator := "m0" }

theorem include_resolver_per_leaf_spec_witness :
    (resolveOne wReg wServer 2 (Entity.model wRootModel) "author.company").2 =
      [FetchNode.node "u/author" true [FetchNode.node "u/company" true []]] := by
  obtain ⟨n, hs, hr, _⟩ := include_resolver_per_leaf_spec wReg wServer 2 wRootModel
    ["author", "author.company"] "author.company" (by decide) (by decide)
  have hc : specResolvePath wReg wServer 2 wRootModel "author.company" =
      some (FetchNode.node "u/author" true [FetchNode.node "u/company" true []]) := rfl
  have hn : n = FetchNode.node "u/author" true [FetchNode.node "u/company" true []] :=
    Option.some.inj (hs.symm.trans hc)
  rw [hr, hn]

/-- C3: fail-fast join. If the root fetch of a `findOne` with includes
succeeds but any one of the relationship calls issued for the surviving leaf
paths fails, the overall `findOne` result is a failure - `combineLatest`
propagates the first error and the subscriber never receives a model, so no
partial result reaches the caller - regardless of the other leaf calls. -/
theorem find_one_include_fail_fast (cfg : NetworkConfig) (reg : Registry)
    (server : String → Except Unit RawHalResource) (fuel : Nat) (cls : Nat)
    (modelId : String) (rels : List String) (ent : Entity)
    (hroot : makeGet reg server (buildModelUrl cfg reg cls (some modelId)) (some cls) true =
      .ok ent)
    (hfail : ∃ p ∈ fetchRelationshipsT reg server fuel ent rels, p.1 = Except.error ()) :
    (findOneT cfg reg server (fuel + 1) cls modelId rels).1 = Except.error () := by
  obtain ⟨p, hp, hperr⟩ := hfail
  by_cases h0 : rels.length = 0
  · rw [List.length_eq_zero] at h0
    subst h0
    rw [show fetchRelationshipsT reg server fuel ent [] = [] from rfl] at hp
    exact absurd hp (List.not_mem_nil p)
  · unfold findOneT
    rw [handleGetT_succ_ok hroot h0]
    have hjm : Except.error () ∈ (fetchRelationshipsT reg server fuel ent rels).map Prod.fst := by
      rw [← hperr]
      exact List.mem_map_of_mem Prod.fst hp
    show (match joinLatest ((fetchRelationshipsT reg server fuel ent rels).map Prod.fst) with
      | Except.error e => Except.error e
      | Except.ok none => Except.ok none
      | Except.ok (some _) => Except.ok (some ent)) = Except.error ()
    rw [joinLatest_error_of_mem hjm]

def wCfg3 : NetworkConfig := { baseUrl := "http://api" }

def wReg3 : Registry :=
  [{ endpoint := "people",
     hasOneProperties :=
      [{ type := ModelPropertyType.HasOne, name := "a", propertyClass := some 1 },
       { type := ModelPropertyType.HasOne, name := "b", propertyClass := some 1 },
       { type := ModelPropertyType.HasOne, name := "c", propertyClass := some 1 }] },
   {}]

def wRootRes3 : RawHalResource :=
  { links := some [("a", some { href := "u/a" }), ("b", some { href := "u/b" }),
      ("c", some { href := "u/c" })] }

def wServer3 : String → Except Unit RawHalResource := fun url =>
  if url = "http://api/people/1" then .ok wRootRes3
  else if url = "u/a" then .ok {}
  else if url = "u/c" then .ok {}
  else .error ()

def wRootEnt3 : Entity := Entity.model (mkHalModel wReg3 0 wRootRes3 fetchedUuid)

theorem find_one_include_fail_fast_witness :
    (resolveOne wReg3 wServer3 1 wRootEnt3 "a").1 = Except.ok none ∧
    (resolveOne wReg3 wServer3 1 wRootEnt3 "c").1 = Except.ok none ∧
    (findOneT wCfg3 wReg3 wServer3 2 0 "1" ["a", "b", "c"]).1 = Except.error () :=
  ⟨rfl, rfl,
    find_one_include_fail_fast wCfg3 wReg3 wServer3 1 0 "1" ["a", "b", "c"] wRootEnt3 rfl
      ⟨resolveOne wReg3 wServer3 1 wRootEnt3 "b",
        List.mem_map_of_mem _ (by decide), rfl⟩⟩

end NgxHal
